import Mathlib

/-!
Verification of the TurboDRF nested field-permission engine and the
OR filter backend.

The permission engine itself (roles, grants, `canAccess`, `checkPath`,
snapshot builder, filter-path validator) is not shipped in the visible
sources - only its example driver is - so its definitions below are
modelled from the specification.  The OR filter backend
(`turbodrf/filter_backends.py`) is shipped and is embedded directly
from the source.
-/

namespace TurboDRF

instance {ε α : Type} [DecidableEq ε] [DecidableEq α] : DecidableEq (Except ε α) := fun x y =>
  match x, y with
  | Except.ok a, Except.ok b =>
      if h : a = b then isTrue (by rw [h]) else isFalse (by intro hc; cases hc; exact h rfl)
  | Except.ok _, Except.error _ => isFalse (by intro hc; cases hc)
  | Except.error _, Except.ok _ => isFalse (by intro hc; cases hc)
  | Except.error e, Except.error f =>
      if h : e = f then isTrue (by rw [h]) else isFalse (by intro hc; cases hc; exact h rfl)

abbrev ModelId := String
abbrev FieldName := String

/-- Modelled from the spec: model-level grant actions (missing source:
`turbodrf/models.py` `RolePermission.action`). -/
inductive Action
  | read
  | write
  | create
  | delete
deriving DecidableEq, Repr

/-- Modelled from the spec: field-level permission types are read/write only
(missing source: `turbodrf/models.py` `RolePermission.permission_type`). -/
inductive PermType
  | read
  | write
deriving DecidableEq, Repr

/-- The field-level permission type matching a requested action; create and
delete have no field-level counterpart. -/
def Action.toPermType : Action → Option PermType
  | Action.read => some PermType.read
  | Action.write => some PermType.write
  | _ => none

/-- Modelled from the spec: a field-level grant record (role, model, field,
permission type); missing source `turbodrf/models.py` `RolePermission`. -/
structure FieldGrant where
  model : ModelId
  field : FieldName
  perm : PermType
deriving DecidableEq, Repr

/-- Modelled from the spec: a model-level grant record (role, model, action);
missing source `turbodrf/models.py` `RolePermission`. -/
structure ModelGrant where
  model : ModelId
  action : Action
deriving DecidableEq, Repr

/-- Modelled from the spec: a role with its grants (missing source
`turbodrf/models.py` `TurboDRFRole`). -/
structure Role where
  name : String
  modelGrants : List ModelGrant
  fieldGrants : List FieldGrant
deriving DecidableEq, Repr

/-- Modelled from the spec: a user is an identity plus the set of assigned
roles (missing source `turbodrf/models.py` `UserRole`). -/
structure User where
  id : String
  roles : List Role
deriving DecidableEq, Repr

def roleModelGrant (r : Role) (m : ModelId) (a : Action) : Bool :=
  r.modelGrants.any fun g => decide (g.model = m ∧ g.action = a)

def roleFieldGrantsFor (r : Role) (m : ModelId) (pt : PermType) : Bool :=
  r.fieldGrants.any fun g => decide (g.model = m ∧ g.perm = pt)

def roleFieldGrant (r : Role) (m : ModelId) (f : FieldName) (pt : PermType) : Bool :=
  r.fieldGrants.any fun g => decide (g.model = m ∧ g.field = f ∧ g.perm = pt)

def hasModelGrant (u : User) (m : ModelId) (a : Action) : Bool :=
  u.roles.any fun r => roleModelGrant r m a

def hasFieldGrantsFor (u : User) (m : ModelId) (pt : PermType) : Bool :=
  u.roles.any fun r => roleFieldGrantsFor r m pt

def hasFieldGrant (u : User) (m : ModelId) (f : FieldName) (pt : PermType) : Bool :=
  u.roles.any fun r => roleFieldGrant r m f pt

/-- Modelled from the spec: the Permission Evaluator `canAccess` of spec 4.2
(missing source: the database permission mode of `turbodrf/permissions.py`).
Two-phase lookup: if any of the user's roles holds a field-level grant of the
matching permission type for the model, enumerated mode applies (the field
must be named by such a grant); otherwise a model-level grant for the
requested action suffices. -/
def canAccess (u : User) (m : ModelId) (f : FieldName) (a : Action) : Bool :=
  match a.toPermType with
  | some pt =>
      if hasFieldGrantsFor u m pt then hasFieldGrant u m f pt
      else hasModelGrant u m a
  | none => hasModelGrant u m a

/-- Modelled from the spec: a declared field is a scalar or a relationship to
a target model (missing source: the schema introspection consumed by
`turbodrf/validation.py`). -/
inductive FieldKind
  | scalar
  | rel (target : ModelId)
deriving DecidableEq, Repr

structure FieldSpec where
  name : FieldName
  kind : FieldKind
deriving DecidableEq, Repr

/-- Modelled from the spec: the declared schema, a finite table from model
identifiers to their declared fields. -/
structure Schema where
  models : List (ModelId × List FieldSpec)
deriving DecidableEq, Repr

def Schema.fieldsOf (sch : Schema) (m : ModelId) : List FieldSpec :=
  match sch.models.find? (fun p => decide (p.1 = m)) with
  | some p => p.2
  | none => []

def Schema.lookupField (sch : Schema) (m : ModelId) (f : FieldName) : Option FieldKind :=
  ((sch.fieldsOf m).find? (fun fs => decide (fs.name = f))).map FieldSpec.kind

/-- A schema is well formed when no model declares two fields of the same
name. -/
def Schema.WF (sch : Schema) : Prop :=
  ∀ p ∈ sch.models, (p.2.map FieldSpec.name).Nodup

instance (sch : Schema) : Decidable sch.WF := by
  unfold Schema.WF
  infer_instance

/-- Modelled from the spec: the error taxonomy of spec 7 (missing source:
`turbodrf/validation.py`). -/
inductive PathError
  | unknownField
  | invalidPath
  | depthLimitExceeded
deriving DecidableEq, Repr

/-- One resolved step of a dotted path. -/
structure Step where
  model : ModelId
  fieldName : FieldName
  isTerminal : Bool
deriving DecidableEq, Repr

/-- Modelled from the spec: the Relationship Resolver walk of spec 4.1
(missing source: `turbodrf/validation.py`), on a path already split into
segments.  Intermediate segments must be relationship fields. -/
def resolveSteps (sch : Schema) : ModelId → List FieldName → Except PathError (List Step)
  | _, [] => Except.ok []
  | m, f :: rest =>
      match sch.lookupField m f, rest with
      | none, _ => Except.error PathError.unknownField
      | some _, [] => Except.ok [⟨m, f, true⟩]
      | some FieldKind.scalar, _ :: _ => Except.error PathError.invalidPath
      | some (FieldKind.rel t), r :: rs =>
          (resolveSteps sch t (r :: rs)).map (fun steps => ⟨m, f, false⟩ :: steps)

/-- Modelled from the spec: `resolve` applies the configured depth limit
before walking the path (spec 4.1). -/
def resolve (sch : Schema) (maxDepth : Nat) (root : ModelId) (path : List FieldName) :
    Except PathError (List Step) :=
  if maxDepth < path.length then Except.error PathError.depthLimitExceeded
  else resolveSteps sch root path

/-- Modelled from the spec: the Nested Permission Checker's per-step check
(spec 4.3): read permission on every non-terminal relationship step, the
requested action on the terminal step. -/
def checkSteps (u : User) (a : Action) : List Step → Bool
  | [] => true
  | s :: rest =>
      if s.isTerminal then canAccess u s.model s.fieldName a
      else canAccess u s.model s.fieldName Action.read && checkSteps u a rest

/-- Modelled from the spec: `check_nested_field_permissions` of
`turbodrf/validation.py` (missing source), composed of the resolver and the
per-step permission check. -/
def checkPath (sch : Schema) (maxDepth : Nat) (root : ModelId) (path : List FieldName)
    (u : User) (a : Action) : Except PathError Bool :=
  (resolve sch maxDepth root path).map (checkSteps u a)

/-- Modelled from the spec: the Permission Snapshot record of spec 3
(missing source: `turbodrf/backends.py`). -/
structure Snapshot where
  allowedActions : List Action
  readableFields : List (List FieldName)
  writableFields : List (List FieldName)
deriving DecidableEq, Repr

def allActions : List Action :=
  [Action.read, Action.write, Action.create, Action.delete]

/-- Modelled from the spec: the snapshot builder's enumeration of permitted
field paths (spec 4.4): walk every declared field of every model reachable
within the depth bound, keep a path whose terminal field grants the action,
and descend through a relationship field only when the user may read it. -/
def buildFieldPaths (sch : Schema) (u : User) (a : Action) :
    Nat → ModelId → List (List FieldName)
  | 0, _ => []
  | Nat.succ d, m =>
      (sch.fieldsOf m).flatMap fun fs =>
        (if canAccess u m fs.name a then [[fs.name]] else []) ++
        (match fs.kind with
         | FieldKind.scalar => []
         | FieldKind.rel t =>
             if canAccess u m fs.name Action.read then
               (buildFieldPaths sch u a d t).map (fun p => fs.name :: p)
             else [])

/-- Modelled from the spec: the snapshot build algorithm of spec 4.4
(missing source: `build_permission_snapshot` of `turbodrf/backends.py`). -/
def buildSnapshot (sch : Schema) (maxDepth : Nat) (u : User) (root : ModelId) : Snapshot :=
  { allowedActions := allActions.filter (fun a => hasModelGrant u root a)
    readableFields := buildFieldPaths sch u Action.read maxDepth root
    writableFields := buildFieldPaths sch u Action.write maxDepth root }

/-- Modelled from the spec: the snapshot cache keyed by (user identity,
root type identity) (spec 4.4). -/
structure SnapshotCache where
  entries : List ((String × ModelId) × Snapshot)
deriving DecidableEq, Repr

def SnapshotCache.lookup (c : SnapshotCache) (k : String × ModelId) : Option Snapshot :=
  (c.entries.find? (fun e => decide (e.1 = k))).map Prod.snd

/-- Modelled from the spec: `build_permission_snapshot` with its cache
(missing source: `turbodrf/backends.py`); the cache is threaded explicitly
as state. -/
def build (sch : Schema) (maxDepth : Nat) (c : SnapshotCache) (u : User) (root : ModelId)
    (useCache : Bool) : Snapshot × SnapshotCache :=
  if useCache then
    match c.lookup (u.id, root) with
    | some s => (s, c)
    | none =>
        let s := buildSnapshot sch maxDepth u root
        (s, ⟨((u.id, root), s) :: c.entries⟩)
  else (buildSnapshot sch maxDepth u root, c)

/-- Modelled from the spec: the fixed allow-list of trailing lookup
operators recognized by the Filter Path Validator (spec 4.5; missing source
`validate_filter_field` of `turbodrf/validation.py`). -/
def lookupAllowList : List String :=
  [r"exact", r"iexact", r"contains", r"icontains", r"in", r"gt", r"gte",
   r"lt", r"lte", r"startswith", r"istartswith", r"endswith", r"iendswith",
   r"range", r"isnull", r"regex", r"iregex"]

/-- Modelled from the spec: split a raw query key (already cut into
segments) into a field path and an optional trailing lookup operator; an
unrecognized trailing segment stays part of the field path (spec 4.5). -/
def splitLookup (segs : List FieldName) : List FieldName × Option String :=
  match segs.getLast? with
  | none => (segs, none)
  | some last =>
      if 2 ≤ segs.length ∧ last ∈ lookupAllowList then (segs.dropLast, some last)
      else (segs, none)

/-- Modelled from the spec: `validate_filter_field` of
`turbodrf/validation.py` (missing source): strip the lookup operator, then
delegate depth and path validation to the resolver; permission is not
decided here. -/
def validateFilterField (sch : Schema) (maxDepth : Nat) (root : ModelId)
    (rawSegs : List FieldName) : Except PathError (List FieldName × Option String) :=
  let parsed := splitLookup rawSegs
  (resolve sch maxDepth root parsed.1).map (fun _ => parsed)

/-!
Embedding of `turbodrf/filter_backends.py` (`ORFilterBackend.filter_queryset`).

Query parameters are an ordered multi-map `List (String × String)`; a
queryset is a `List Row`.  The ORM is abstracted by two parameters: `cond`
gives the row predicate of one `Q(**{field: value})` object, and `applyF`
gives the row predicate of one regular `queryset.filter(**{key: value})`
call, returning `none` when that call would raise. -/

/-- Distinct keys in order of first occurrence, as Django QueryDict.keys. -/
def uniqueKeys : List String → List String
  | [] => []
  | k :: ks => k :: uniqueKeys (ks.filter (fun x => decide (x ≠ k)))
termination_by l => l.length
decreasing_by
  simp only [List.length_cons]
  exact Nat.lt_succ_of_le (List.length_filter_le _ _)

/-- All values of a key, in order, as QueryDict.getlist. -/
def getlist (qp : List (String × String)) (k : String) : List String :=
  (qp.filter (fun kv => decide (kv.1 = k))).map Prod.snd

def emptyStr : String := r""

/-- The value of a key, as QueryDict.get: the last value supplied. -/
def qpGet (qp : List (String × String)) (k : String) : String :=
  ((getlist qp k).getLast?).getD emptyStr

def reservedParams : List String :=
  [r"page", r"page_size", r"search", r"ordering", r"format"]

def orSuffix : String := r"_or"

def inLookup : String := r"__in"

def commaStr : String := r","

/-- A regular filter value: plain, or a comma-split list for `__in` keys. -/
inductive FilterValue
  | single (v : String)
  | multi (vs : List String)
deriving DecidableEq, Repr

/-- `"__in" in key` followed by `value.split(",")` from the source. -/
def regValue (k v : String) : FilterValue :=
  if 1 < (k.splitOn inLookup).length then FilterValue.multi (v.splitOn commaStr)
  else FilterValue.single v

/-- The `or_params` dict: for each non-reserved key ending in `_or`, the
key with the suffix removed paired with all its values. -/
def orGroups (qp : List (String × String)) : List (String × List String) :=
  (uniqueKeys (qp.map Prod.fst)).filterMap fun k =>
    if k ∈ reservedParams then none
    else if k.endsWith orSuffix then some (k.dropRight 3, getlist qp k)
    else none

/-- The `regular_params` dict: each non-reserved key not ending in `_or`,
paired with its QueryDict.get value. -/
def regularParams (qp : List (String × String)) : List (String × String) :=
  (uniqueKeys (qp.map Prod.fst)).filterMap fun k =>
    if k ∈ reservedParams then none
    else if k.endsWith orSuffix then none
    else some (k, qpGet qp k)

/-- The OR phase: values of one group OR-ed, groups AND-ed, applied as one
filter when any group exists. -/
def orPhase {Row : Type} (cond : String → String → Row → Bool)
    (qp : List (String × String)) (qs : List Row) : List Row :=
  if (orGroups qp).isEmpty then qs
  else qs.filter fun row => (orGroups qp).all fun g => g.2.any fun v => cond g.1 v row

/-- The regular phase: each parameter applied as a further filter, in
order; an application that would raise is swallowed and skipped. -/
def regPhase {Row : Type} (applyF : String → FilterValue → Option (Row → Bool)) :
    List (String × String) → List Row → List Row
  | [], qs => qs
  | kv :: ps, qs =>
      match applyF kv.1 (regValue kv.1 kv.2) with
      | some p => regPhase applyF ps (qs.filter p)
      | none => regPhase applyF ps qs

/-- `ORFilterBackend.filter_queryset` of `turbodrf/filter_backends.py`. -/
def filter_queryset {Row : Type} (applyF : String → FilterValue → Option (Row → Bool))
    (cond : String → String → Row → Bool)
    (qp : List (String × String)) (qs : List Row) : List Row :=
  regPhase applyF (regularParams qp) (orPhase cond qp qs)

/-!
Concrete fixtures mirroring `examples/nested_permissions_example.py`:
the Book -> Author -> Publisher schema and the three roles. -/

def bookM : ModelId := r"book"
def authorM : ModelId := r"author"
def publisherM : ModelId := r"publisher"
def titleF : FieldName := r"title"
def authorF : FieldName := r"author"
def nameF : FieldName := r"name"
def emailF : FieldName := r"email"
def salaryF : FieldName := r"salary"
def ssnF : FieldName := r"ssn"
def publisherF : FieldName := r"publisher"
def revenueF : FieldName := r"revenue"
def gteStr : String := r"gte"

def exSchema : Schema :=
  ⟨[(bookM, [⟨titleF, FieldKind.scalar⟩, ⟨authorF, FieldKind.rel authorM⟩]),
    (authorM, [⟨nameF, FieldKind.scalar⟩, ⟨emailF, FieldKind.scalar⟩,
               ⟨salaryF, FieldKind.scalar⟩, ⟨ssnF, FieldKind.scalar⟩,
               ⟨publisherF, FieldKind.rel publisherM⟩]),
    (publisherM, [⟨nameF, FieldKind.scalar⟩, ⟨revenueF, FieldKind.scalar⟩])]⟩

def fullAccessRole : Role :=
  ⟨r"full_access",
   [⟨bookM, Action.read⟩, ⟨authorM, Action.read⟩, ⟨publisherM, Action.read⟩],
   []⟩

def limitedAccessRole : Role :=
  ⟨r"limited_access", [⟨bookM, Action.read⟩, ⟨authorM, Action.read⟩], []⟩

def fieldRestrictedRole : Role :=
  ⟨r"field_restricted", [⟨bookM, Action.read⟩],
   [⟨authorM, nameF, PermType.read⟩, ⟨authorM, emailF, PermType.read⟩]⟩

def fullUser : User := ⟨r"full_user", [fullAccessRole]⟩

def limitedUser : User := ⟨r"limited_user", [limitedAccessRole]⟩

def fieldUser : User := ⟨r"field_user", [fieldRestrictedRole]⟩

/-! Theorems. -/

theorem resolveSteps_nil (sch : Schema) (m : ModelId) :
    resolveSteps sch m [] = Except.ok [] := rfl

theorem resolveSteps_none (sch : Schema) (m : ModelId) (f : FieldName)
    (rest : List FieldName) (hl : sch.lookupField m f = none) :
    resolveSteps sch m (f :: rest) = Except.error PathError.unknownField := by
  cases rest <;> simp [resolveSteps, hl]

theorem resolveSteps_single (sch : Schema) (m : ModelId) (f : FieldName) (k : FieldKind)
    (hl : sch.lookupField m f = some k) :
    resolveSteps sch m [f] = Except.ok [⟨m, f, true⟩] := by
  simp [resolveSteps, hl]

theorem resolveSteps_cons_scalar (sch : Schema) (m : ModelId) (f r : FieldName)
    (rs : List FieldName) (hl : sch.lookupField m f = some FieldKind.scalar) :
    resolveSteps sch m (f :: r :: rs) = Except.error PathError.invalidPath := by
  simp [resolveSteps, hl]

theorem resolveSteps_cons_rel (sch : Schema) (m : ModelId) (f : FieldName) (t : ModelId)
    (r : FieldName) (rs : List FieldName) (hl : sch.lookupField m f = some (FieldKind.rel t)) :
    resolveSteps sch m (f :: r :: rs)
      = (resolveSteps sch t (r :: rs)).map (fun steps => ⟨m, f, false⟩ :: steps) := by
  simp [resolveSteps, hl]

theorem resolveSteps_ne_depthLimit (sch : Schema) :
    ∀ (path : List FieldName) (m : ModelId),
      resolveSteps sch m path ≠ Except.error PathError.depthLimitExceeded := by
  intro path
  induction path with
  | nil => intro m h; simp [resolveSteps] at h
  | cons f rest ih =>
      intro m h
      cases hl : sch.lookupField m f with
      | none => simp [resolveSteps, hl] at h
      | some k =>
          cases k with
          | scalar =>
              cases rest with
              | nil => simp [resolveSteps, hl] at h
              | cons r rs => simp [resolveSteps, hl] at h
          | rel t =>
              cases rest with
              | nil => simp [resolveSteps, hl] at h
              | cons r rs =>
                  rw [resolveSteps_cons_rel sch m f t r rs hl] at h
                  cases hr : resolveSteps sch t (r :: rs) with
                  | ok s => rw [hr] at h; simp [Except.map] at h
                  | error e =>
                      rw [hr] at h
                      simp only [Except.map] at h
                      cases h
                      exact ih t hr

/-- Claim C3: a path whose segment count exceeds the configured maximum
makes both `checkPath` and the filter validator's parse fail with
`DepthLimitExceededError`; a path within the limit never produces that
error from either entry point. -/
theorem depth_enforcement (sch : Schema) (maxDepth : Nat) (root : ModelId)
    (path rawSegs : List FieldName) (u : User) (a : Action) :
    (maxDepth < path.length →
      checkPath sch maxDepth root path u a = Except.error PathError.depthLimitExceeded) ∧
    (path.length ≤ maxDepth →
      checkPath sch maxDepth root path u a ≠ Except.error PathError.depthLimitExceeded) ∧
    (maxDepth < (splitLookup rawSegs).1.length →
      validateFilterField sch maxDepth root rawSegs
        = Except.error PathError.depthLimitExceeded) ∧
    ((splitLookup rawSegs).1.length ≤ maxDepth →
      validateFilterField sch maxDepth root rawSegs
        ≠ Except.error PathError.depthLimitExceeded) := by
  refine ⟨fun h => ?_, fun h hc => ?_, fun h => ?_, fun h hc => ?_⟩
  · simp [checkPath, resolve, h, Except.map]
  · rw [checkPath, resolve, if_neg (Nat.not_lt.mpr h)] at hc
    cases hr : resolveSteps sch root path with
    | ok s => rw [hr] at hc; simp [Except.map] at hc
    | error e =>
        rw [hr] at hc
        simp only [Except.map] at hc
        cases hc
        exact resolveSteps_ne_depthLimit sch path root hr
  · simp [validateFilterField, resolve, h, Except.map]
  · simp only [validateFilterField] at hc
    rw [resolve, if_neg (Nat.not_lt.mpr h)] at hc
    cases hr : resolveSteps sch root (splitLookup rawSegs).1 with
    | ok s => rw [hr] at hc; simp [Except.map] at hc
    | error e =>
        rw [hr] at hc
        simp only [Except.map] at hc
        cases hc
        exact resolveSteps_ne_depthLimit sch (splitLookup rawSegs).1 root hr

theorem depth_enforcement_witness :
    checkPath exSchema 2 bookM [authorF, publisherF, nameF] fullUser Action.read
      = Except.error PathError.depthLimitExceeded ∧
    checkPath exSchema 3 bookM [authorF, publisherF, nameF] fullUser Action.read
      ≠ Except.error PathError.depthLimitExceeded ∧
    validateFilterField exSchema 1 bookM [authorF, salaryF, gteStr]
      = Except.error PathError.depthLimitExceeded :=
  ⟨(depth_enforcement exSchema 2 bookM [authorF, publisherF, nameF] [] fullUser
      Action.read).1 (by decide),
   (depth_enforcement exSchema 3 bookM [authorF, publisherF, nameF] [] fullUser
      Action.read).2.1 (by decide),
   (depth_enforcement exSchema 1 bookM [] [authorF, salaryF, gteStr] fullUser
      Action.read).2.2.1 (by decide)⟩

theorem checkSteps_false_of_denied (sch : Schema) (u : User) (a : Action) :
    ∀ (path : List FieldName) (m : ModelId) (steps : List Step),
      resolveSteps sch m path = Except.ok steps →
      ∀ s ∈ steps, s.isTerminal = false →
        canAccess u s.model s.fieldName Action.read = false →
        checkSteps u a steps = false := by
  intro path
  induction path with
  | nil =>
      intro m steps hres s hs _ _
      simp [resolveSteps] at hres
      subst hres
      cases hs
  | cons f rest ih =>
      intro m steps hres s hs hnt hden
      cases hl : sch.lookupField m f with
      | none => simp [resolveSteps, hl] at hres
      | some k =>
          cases k with
          | scalar =>
              cases rest with
              | nil =>
                  simp [resolveSteps, hl] at hres
                  subst hres
                  rcases List.mem_singleton.mp hs with rfl
                  simp at hnt
              | cons r rs => simp [resolveSteps, hl] at hres
          | rel t =>
              cases rest with
              | nil =>
                  simp [resolveSteps, hl] at hres
                  subst hres
                  rcases List.mem_singleton.mp hs with rfl
                  simp at hnt
              | cons r rs =>
                  rw [resolveSteps_cons_rel sch m f t r rs hl] at hres
                  cases hr : resolveSteps sch t (r :: rs) with
                  | error e => rw [hr] at hres; simp [Except.map] at hres
                  | ok steps' =>
                      rw [hr] at hres
                      simp only [Except.map, Except.ok.injEq] at hres
                      subst hres
                      rcases List.mem_cons.mp hs with rfl | hs'
                      · simp only [checkSteps, Bool.if_false_left]
                        simp at hden ⊢
                        intro hcontra
                        rw [hcontra] at hden
                        cases hden
                      · have := ih t steps' hr s hs' hnt hden
                        simp [checkSteps, this]

/-- Claim C2: if read access to any non-terminal relationship step of a
resolved path is denied, `checkPath` on the whole path returns false,
whatever the terminal field's own grants are. -/
theorem ancestor_gating (sch : Schema) (maxDepth : Nat) (root : ModelId)
    (path : List FieldName) (u : User) (a : Action) (steps : List Step)
    (_hlen : 2 ≤ path.length)
    (hres : resolve sch maxDepth root path = Except.ok steps)
    (s : Step) (hs : s ∈ steps) (hnt : s.isTerminal = false)
    (hden : canAccess u s.model s.fieldName Action.read = false) :
    checkPath sch maxDepth root path u a = Except.ok false := by
  rw [resolve] at hres
  by_cases hd : maxDepth < path.length
  · rw [if_pos hd] at hres; cases hres
  · rw [if_neg hd] at hres
    rw [checkPath, resolve, if_neg hd, hres]
    simp only [Except.map]
    rw [checkSteps_false_of_denied sch u a path root steps hres s hs hnt hden]

theorem ancestor_gating_witness :
    canAccess fieldUser authorM publisherF Action.read = false ∧
    checkPath exSchema 3 bookM [authorF, publisherF, nameF] fieldUser Action.read
      = Except.ok false :=
  ⟨by decide,
   ancestor_gating exSchema 3 bookM [authorF, publisherF, nameF] fieldUser Action.read
     [⟨bookM, authorF, false⟩, ⟨authorM, publisherF, false⟩, ⟨publisherM, nameF, true⟩]
     (by decide) (by decide) ⟨authorM, publisherF, false⟩ (by decide) (by decide) (by decide)⟩

/-- Claim C5: with cache contents consistent with the current grant data,
building with the cache enabled yields a snapshot structurally identical to
a fresh build with the cache disabled. -/
theorem cache_transparency (sch : Schema) (maxDepth : Nat) (c : SnapshotCache)
    (u : User) (root : ModelId)
    (hfresh : ∀ s, c.lookup (u.id, root) = some s → s = buildSnapshot sch maxDepth u root) :
    (build sch maxDepth c u root true).1 = (build sch maxDepth c u root false).1 := by
  rw [build, build]
  cases hl : c.lookup (u.id, root) with
  | none => simp
  | some s => simpa using hfresh s hl

theorem cache_transparency_witness :
    (build exSchema 3 ⟨[]⟩ fullUser bookM true).1
      = (build exSchema 3 ⟨[]⟩ fullUser bookM false).1 :=
  cache_transparency exSchema 3 ⟨[]⟩ fullUser bookM
    (fun s h => by simp [SnapshotCache.lookup] at h)

/-! Fixtures for the precedence and union-over-roles claims.  `canAccess`
consults only the roles, so no schema entry is needed for model `t`. -/

def tM : ModelId := r"t"
def xF : FieldName := r"x"
def yF : FieldName := r"y"

/-- A role holding a model-level read grant on `t` together with a single
field-level WRITE grant on `t.x` - its field grants include none of the
read permission type. -/
def cxRole : Role := ⟨r"cx_role", [⟨tM, Action.read⟩], [⟨tM, xF, PermType.write⟩]⟩

def cxUser : User := ⟨r"cx_user", [cxRole]⟩

theorem field_grant_precedence_counterexample :
    (∃ r0 ∈ cxUser.roles,
        roleModelGrant r0 tM Action.read = true ∧ r0.fieldGrants ≠ []) ∧
    hasFieldGrant cxUser tM yF PermType.read = false ∧
    canAccess cxUser tM yF Action.read = true := by decide

/-- Claim C1 (amended): when some role of the user holds a model-level grant
for the model with the requested action and that role also holds at least
one explicit field-level grant for the model OF THE MATCHING PERMISSION
TYPE, `canAccess` is true for exactly the fields named by such a field-level
grant under some role of the user, and false for every other field. -/
theorem field_grant_precedence (u : User) (m : ModelId) (f : FieldName)
    (a : Action) (pt : PermType) (hpt : a.toPermType = some pt)
    (hr : ∃ r0 ∈ u.roles,
        roleModelGrant r0 m a = true ∧ roleFieldGrantsFor r0 m pt = true) :
    canAccess u m f a = hasFieldGrant u m f pt := by
  obtain ⟨r0, hmem, _, hfg⟩ := hr
  have hfgs : hasFieldGrantsFor u m pt = true := by
    rw [hasFieldGrantsFor, List.any_eq_true]
    exact ⟨r0, hmem, hfg⟩
  rw [canAccess, hpt]
  simp [hfgs]

def wRole : Role :=
  ⟨r"w_role", [⟨tM, Action.read⟩],
   [⟨tM, xF, PermType.read⟩, ⟨tM, yF, PermType.read⟩]⟩

def wUser : User := ⟨r"w_user", [wRole]⟩

theorem field_grant_precedence_witness :
    Action.toPermType Action.read = some PermType.read ∧
    (∃ r0 ∈ wUser.roles,
        roleModelGrant r0 tM Action.read = true ∧
        roleFieldGrantsFor r0 tM PermType.read = true) ∧
    canAccess wUser tM xF Action.read = hasFieldGrant wUser tM xF PermType.read :=
  ⟨rfl, by decide,
   field_grant_precedence wUser tM xF Action.read PermType.read rfl (by decide)⟩

/-- A role granting `t.x` by an explicit field-level read grant only. -/
def r1Role : Role := ⟨r"r1", [], [⟨tM, xF, PermType.read⟩]⟩

/-- A role granting all of `t` (hence `t.y`) by a model-level read grant. -/
def r2Role : Role := ⟨r"r2", [⟨tM, Action.read⟩], []⟩

theorem union_over_roles_counterexample :
    canAccess ⟨r"only_r2", [r2Role]⟩ tM yF Action.read = true ∧
    canAccess ⟨r"both", [r1Role, r2Role]⟩ tM xF Action.read = true ∧
    canAccess ⟨r"both", [r1Role, r2Role]⟩ tM yF Action.read = false := by decide

theorem roleFieldGrantsFor_of_roleFieldGrant (r0 : Role) (m : ModelId)
    (f : FieldName) (pt : PermType) (h : roleFieldGrant r0 m f pt = true) :
    roleFieldGrantsFor r0 m pt = true := by
  rw [roleFieldGrant, List.any_eq_true] at h
  obtain ⟨g, hg, hp⟩ := h
  rw [decide_eq_true_eq] at hp
  rw [roleFieldGrantsFor, List.any_eq_true]
  exact ⟨g, hg, by rw [decide_eq_true_eq]; exact ⟨hp.1, hp.2.2⟩⟩

/-- Claim C6 (amended): permissions derived from explicit field-level grants
are additive across roles: if some role of the user holds a field-level
grant naming the field with the matching permission type, `canAccess` is
true, and it stays true when further roles are added; permissions that a
role derives from a model-level grant alone are not preserved in this way. -/
theorem union_over_roles_field_grants (uid uid2 : String) (rs more : List Role)
    (m : ModelId) (f : FieldName) (a : Action) (pt : PermType)
    (hpt : a.toPermType = some pt)
    (hx : hasFieldGrant ⟨uid, rs⟩ m f pt = true) :
    canAccess ⟨uid2, rs ++ more⟩ m f a = true := by
  rw [hasFieldGrant, List.any_eq_true] at hx
  obtain ⟨r0, hmem, hg⟩ := hx
  have hmem2 : r0 ∈ rs ++ more := List.mem_append_left more hmem
  have hx2 : hasFieldGrant ⟨uid2, rs ++ more⟩ m f pt = true := by
    rw [hasFieldGrant, List.any_eq_true]
    exact ⟨r0, hmem2, hg⟩
  have hfgs : hasFieldGrantsFor ⟨uid2, rs ++ more⟩ m pt = true := by
    rw [hasFieldGrantsFor, List.any_eq_true]
    exact ⟨r0, hmem2, roleFieldGrantsFor_of_roleFieldGrant r0 m f pt hg⟩
  rw [canAccess, hpt]
  simp [hfgs, hx2]

theorem union_over_roles_witness :
    Action.toPermType Action.read = some PermType.read ∧
    hasFieldGrant ⟨r"only_r1", [r1Role]⟩ tM xF PermType.read = true ∧
    canAccess ⟨r"both", [r1Role, r2Role]⟩ tM xF Action.read = true :=
  ⟨rfl, by decide,
   union_over_roles_field_grants (r"only_r1") (r"both") [r1Role] [r2Role] tM xF
     Action.read PermType.read rfl (by decide)⟩

/-- Claim C7: parsing a filter key splits off a trailing lookup operator
exactly when it comes from the fixed allow-list (an unrecognized trailing
segment stays part of the field path), and parsing is independent of
permissions: the example's `author__salary__gte` with no salary grant
parses successfully while the permission check on the parsed path denies. -/
theorem splitLookup_none (segs : List FieldName) (hg : segs.getLast? = none) :
    splitLookup segs = (segs, none) := by
  simp [splitLookup, hg]

theorem splitLookup_some (segs : List FieldName) (last : String)
    (hg : segs.getLast? = some last) :
    splitLookup segs =
      if 2 ≤ segs.length ∧ last ∈ lookupAllowList then (segs.dropLast, some last)
      else (segs, none) := by
  simp [splitLookup, hg]

theorem filter_parse_permission_independent :
    (∀ segs : List FieldName,
        (splitLookup segs).1 ++ ((splitLookup segs).2.elim [] (fun l => [l])) = segs) ∧
    (∀ (segs : List FieldName) (l : String),
        (splitLookup segs).2 = some l → l ∈ lookupAllowList) ∧
    (∀ (segs : List FieldName) (last : String),
        segs.getLast? = some last → last ∉ lookupAllowList →
        splitLookup segs = (segs, none)) ∧
    (validateFilterField exSchema 3 bookM [authorF, salaryF, gteStr]
        = Except.ok ([authorF, salaryF], some gteStr) ∧
     checkPath exSchema 3 bookM [authorF, salaryF] fieldUser Action.read
        = Except.ok false) := by
  refine ⟨fun segs => ?_, fun segs l hl => ?_, fun segs last hlast hnot => ?_,
    by decide, by decide⟩
  · cases hg : segs.getLast? with
    | none => simp [splitLookup_none segs hg]
    | some last =>
        rw [splitLookup_some segs last hg]
        by_cases hc : 2 ≤ segs.length ∧ last ∈ lookupAllowList
        · rw [if_pos hc]
          simpa using List.dropLast_append_getLast? last hg
        · rw [if_neg hc]
          simp
  · cases hg : segs.getLast? with
    | none => rw [splitLookup_none segs hg] at hl; cases hl
    | some last =>
        rw [splitLookup_some segs last hg] at hl
        by_cases hc : 2 ≤ segs.length ∧ last ∈ lookupAllowList
        · rw [if_pos hc] at hl
          cases hl
          exact hc.2
        · rw [if_neg hc] at hl; cases hl
  · rw [splitLookup_some segs last hlast, if_neg]
    intro hc
    exact hnot hc.2

theorem filter_parse_witness :
    (splitLookup [authorF, salaryF, gteStr]).1
        ++ (((splitLookup [authorF, salaryF, gteStr]).2).elim [] (fun l => [l]))
      = [authorF, salaryF, gteStr] ∧
    splitLookup [authorF, publisherF] = ([authorF, publisherF], none) :=
  ⟨filter_parse_permission_independent.1 [authorF, salaryF, gteStr],
   filter_parse_permission_independent.2.2.1 [authorF, publisherF] publisherF
     (by decide) (by decide)⟩

theorem buildFieldPaths_zero (sch : Schema) (u : User) (a : Action) (m : ModelId) :
    buildFieldPaths sch u a 0 m = [] := rfl

theorem buildFieldPaths_succ (sch : Schema) (u : User) (a : Action) (d : Nat) (m : ModelId) :
    buildFieldPaths sch u a (d + 1) m =
      (sch.fieldsOf m).flatMap fun fs =>
        (if canAccess u m fs.name a then [[fs.name]] else []) ++
        (match fs.kind with
         | FieldKind.scalar => []
         | FieldKind.rel t =>
             if canAccess u m fs.name Action.read then
               (buildFieldPaths sch u a d t).map (fun p => fs.name :: p)
             else []) := rfl

theorem ne_nil_of_mem_buildFieldPaths (sch : Schema) (u : User) (a : Action) :
    ∀ (d : Nat) (m : ModelId) (p : List FieldName),
      p ∈ buildFieldPaths sch u a d m → p ≠ [] := by
  intro d
  induction d with
  | zero => intro m p hp; simp [buildFieldPaths_zero] at hp
  | succ d ih =>
      intro m p hp
      rw [buildFieldPaths_succ, List.mem_flatMap] at hp
      obtain ⟨fs, _, hin⟩ := hp
      rw [List.mem_append] at hin
      rcases hin with hin | hin
      · cases hca : canAccess u m fs.name a with
        | false => simp [hca] at hin
        | true =>
            simp only [hca, if_true, List.mem_singleton] at hin
            subst hin
            simp
      · cases hk : fs.kind with
        | scalar => rw [hk] at hin; simp at hin
        | rel t =>
            rw [hk] at hin
            cases hcr : canAccess u m fs.name Action.read with
            | false => simp [hcr] at hin
            | true =>
                simp only [hcr, if_true, List.mem_map] at hin
                obtain ⟨q, _, hq⟩ := hin
                subst hq
                simp

theorem find?_name_eq (f : FieldName) :
    ∀ l : List FieldSpec, (l.map FieldSpec.name).Nodup →
      ∀ fs ∈ l, fs.name = f →
      l.find? (fun x => decide (x.name = f)) = some fs := by
  intro l
  induction l with
  | nil => intro _ fs hfs; cases hfs
  | cons h t ih =>
      intro hn fs hfs hname
      rw [List.map_cons, List.nodup_cons] at hn
      obtain ⟨hnotin, hnt⟩ := hn
      rcases List.mem_cons.mp hfs with rfl | hmem
      · exact List.find?_cons_of_pos t (decide_eq_true hname)
      · have hne : h.name ≠ f := by
          intro he
          exact hnotin (by rw [he, ← hname]; exact List.mem_map_of_mem FieldSpec.name hmem)
        rw [List.find?_cons_of_neg t (by simp [hne])]
        exact ih hnt fs hmem hname

theorem fieldsOf_names_nodup (sch : Schema) (hwf : sch.WF) (m : ModelId) :
    ((sch.fieldsOf m).map FieldSpec.name).Nodup := by
  rw [Schema.fieldsOf]
  cases hf : sch.models.find? (fun p => decide (p.1 = m)) with
  | none => simp
  | some p => exact hwf p (List.mem_of_find?_eq_some hf)

theorem lookupField_iff (sch : Schema) (hwf : sch.WF) (m : ModelId) (f : FieldName)
    (k : FieldKind) :
    sch.lookupField m f = some k ↔
      ∃ fs ∈ sch.fieldsOf m, fs.name = f ∧ fs.kind = k := by
  constructor
  · intro h
    rw [Schema.lookupField] at h
    cases hf : (sch.fieldsOf m).find? (fun fs => decide (fs.name = f)) with
    | none => rw [hf] at h; cases h
    | some fs =>
        rw [hf] at h
        simp only [Option.map_some'] at h
        cases h
        have hp := List.find?_some hf
        simp only [decide_eq_true_eq] at hp
        exact ⟨fs, List.mem_of_find?_eq_some hf, hp, rfl⟩
  · rintro ⟨fs, hmem, hname, hkind⟩
    rw [Schema.lookupField,
      find?_name_eq f (sch.fieldsOf m) (fieldsOf_names_nodup sch hwf m) fs hmem hname]
    simp [hkind]

theorem mem_buildFieldPaths_iff (sch : Schema) (hwf : sch.WF) (u : User) (a : Action) :
    ∀ (path : List FieldName) (d : Nat) (m : ModelId),
      path ∈ buildFieldPaths sch u a d m ↔
        (1 ≤ path.length ∧ path.length ≤ d ∧
         ∃ steps, resolveSteps sch m path = Except.ok steps ∧
           checkSteps u a steps = true) := by
  intro path
  induction path with
  | nil =>
      intro d m
      constructor
      · intro h
        exact absurd rfl (ne_nil_of_mem_buildFieldPaths sch u a d m [] h)
      · rintro ⟨h1, -, -⟩
        simp at h1
  | cons f rest ih =>
      intro d m
      cases d with
      | zero =>
          constructor
          · intro h
            simp [buildFieldPaths_zero] at h
          · rintro ⟨-, h2, -⟩
            simp at h2
      | succ d =>
          cases rest with
          | nil =>
              constructor
              · intro h
                rw [buildFieldPaths_succ, List.mem_flatMap] at h
                obtain ⟨fs, hfs, hin⟩ := h
                rw [List.mem_append] at hin
                rcases hin with hin | hin
                · cases hca : canAccess u m fs.name a with
                  | false => simp [hca] at hin
                  | true =>
                      simp only [hca, if_true, List.mem_singleton] at hin
                      have hname : fs.name = f := by cases hin; rfl
                      refine ⟨by simp, by simp, [⟨m, f, true⟩], ?_, ?_⟩
                      · exact resolveSteps_single sch m f fs.kind
                          ((lookupField_iff sch hwf m f fs.kind).mpr ⟨fs, hfs, hname, rfl⟩)
                      · simp only [checkSteps, if_true]
                        exact hname ▸ hca
                · cases hk : fs.kind with
                  | scalar => rw [hk] at hin; simp at hin
                  | rel t =>
                      rw [hk] at hin
                      cases hcr : canAccess u m fs.name Action.read with
                      | false => simp [hcr] at hin
                      | true =>
                          simp only [hcr, if_true, List.mem_map] at hin
                          obtain ⟨q, hq, he⟩ := hin
                          have hq' : q = [] := by cases he; rfl
                          subst hq'
                          exact absurd rfl (ne_nil_of_mem_buildFieldPaths sch u a d t [] hq)
              · rintro ⟨-, -, steps, hres, hchk⟩
                cases hl : sch.lookupField m f with
                | none => rw [resolveSteps_none sch m f [] hl] at hres; cases hres
                | some k =>
                    rw [resolveSteps_single sch m f k hl] at hres
                    cases hres
                    have hca : canAccess u m f a = true := by
                      simpa [checkSteps] using hchk
                    obtain ⟨fs, hfs, hname, -⟩ := (lookupField_iff sch hwf m f k).mp hl
                    rw [buildFieldPaths_succ, List.mem_flatMap]
                    refine ⟨fs, hfs, ?_⟩
                    rw [List.mem_append]
                    left
                    rw [hname]
                    simp [hca]
          | cons r rs =>
              constructor
              · intro h
                rw [buildFieldPaths_succ, List.mem_flatMap] at h
                obtain ⟨fs, hfs, hin⟩ := h
                rw [List.mem_append] at hin
                rcases hin with hin | hin
                · cases hca : canAccess u m fs.name a with
                  | false => simp [hca] at hin
                  | true => simp [hca] at hin
                · cases hk : fs.kind with
                  | scalar => rw [hk] at hin; simp at hin
                  | rel t =>
                      rw [hk] at hin
                      cases hcr : canAccess u m fs.name Action.read with
                      | false => simp [hcr] at hin
                      | true =>
                          simp only [hcr, if_true, List.mem_map] at hin
                          obtain ⟨q, hq, he⟩ := hin
                          injection he with h1 h2
                          subst h2
                          obtain ⟨-, hlen', steps', hres', hchk'⟩ := (ih d t).mp hq
                          refine ⟨by simp, by simpa using Nat.succ_le_succ hlen',
                            ⟨m, f, false⟩ :: steps', ?_, ?_⟩
                          · rw [resolveSteps_cons_rel sch m f t r rs
                              ((lookupField_iff sch hwf m f (FieldKind.rel t)).mpr
                                ⟨fs, hfs, h1, hk⟩), hres']
                            rfl
                          · have hb : checkSteps u a (⟨m, f, false⟩ :: steps')
                                = (canAccess u m f Action.read && checkSteps u a steps') := rfl
                            rw [hb, Bool.and_eq_true]
                            exact ⟨h1 ▸ hcr, hchk'⟩
              · rintro ⟨-, hlen, steps, hres, hchk⟩
                cases hl : sch.lookupField m f with
                | none => rw [resolveSteps_none sch m f (r :: rs) hl] at hres; cases hres
                | some k =>
                    cases k with
                    | scalar =>
                        rw [resolveSteps_cons_scalar sch m f r rs hl] at hres
                        cases hres
                    | rel t =>
                        rw [resolveSteps_cons_rel sch m f t r rs hl] at hres
                        cases hr : resolveSteps sch t (r :: rs) with
                        | error e =>
                            rw [hr] at hres
                            simp [Except.map] at hres
                        | ok steps' =>
                            rw [hr] at hres
                            simp only [Except.map, Except.ok.injEq] at hres
                            subst hres
                            have hchk2 : canAccess u m f Action.read = true ∧
                                checkSteps u a steps' = true := by
                              simpa [checkSteps, Bool.and_eq_true] using hchk
                            obtain ⟨fs, hfs, hname, hkind⟩ :=
                              (lookupField_iff sch hwf m f (FieldKind.rel t)).mp hl
                            have hmem' : (r :: rs) ∈ buildFieldPaths sch u a d t :=
                              (ih d t).mpr ⟨by simp,
                                by simpa using Nat.le_of_succ_le_succ hlen,
                                steps', hr, hchk2.2⟩
                            rw [buildFieldPaths_succ, List.mem_flatMap]
                            refine ⟨fs, hfs, ?_⟩
                            rw [List.mem_append]
                            right
                            rw [hkind, hname]
                            simp only [hchk2.1, if_true, List.mem_map]
                            exact ⟨r :: rs, hmem', rfl⟩

/-- Claim C4: for a nonempty path within the depth limit over a well-formed
schema, `checkPath` succeeds with true for read exactly when the path is a
member of the snapshot's readable field paths, and likewise for write and
the writable field paths. -/
theorem snapshot_direct_equivalence (sch : Schema) (hwf : sch.WF) (maxDepth : Nat)
    (u : User) (root : ModelId) (path : List FieldName)
    (hne : path ≠ []) (hlen : path.length ≤ maxDepth) :
    (checkPath sch maxDepth root path u Action.read = Except.ok true ↔
       path ∈ (buildSnapshot sch maxDepth u root).readableFields) ∧
    (checkPath sch maxDepth root path u Action.write = Except.ok true ↔
       path ∈ (buildSnapshot sch maxDepth u root).writableFields) := by
  have key : ∀ a0 : Action,
      checkPath sch maxDepth root path u a0 = Except.ok true ↔
        path ∈ buildFieldPaths sch u a0 maxDepth root := by
    intro a0
    rw [mem_buildFieldPaths_iff sch hwf u a0 path maxDepth root]
    rw [checkPath, resolve, if_neg (Nat.not_lt.mpr hlen)]
    constructor
    · intro h
      cases hr : resolveSteps sch root path with
      | error e => rw [hr] at h; simp [Except.map] at h
      | ok steps =>
          rw [hr] at h
          simp only [Except.map, Except.ok.injEq] at h
          exact ⟨List.length_pos.mpr hne, hlen, ⟨steps, rfl, h⟩⟩
    · rintro ⟨-, -, steps, hr, hc⟩
      rw [hr]
      simp [Except.map, hc]
  exact ⟨key Action.read, key Action.write⟩

theorem snapshot_direct_equivalence_witness :
    exSchema.WF ∧
    ((checkPath exSchema 3 bookM [authorF, nameF] fieldUser Action.read = Except.ok true ↔
        [authorF, nameF] ∈ (buildSnapshot exSchema 3 fieldUser bookM).readableFields) ∧
     (checkPath exSchema 3 bookM [authorF, nameF] fieldUser Action.write = Except.ok true ↔
        [authorF, nameF] ∈ (buildSnapshot exSchema 3 fieldUser bookM).writableFields)) :=
  ⟨by decide,
   snapshot_direct_equivalence exSchema (by decide) 3 fieldUser bookM [authorF, nameF]
     (by decide) (by decide)⟩

theorem regPhase_cons_some {Row : Type}
    (applyF : String → FilterValue → Option (Row → Bool))
    (kv : String × String) (ps : List (String × String)) (qs : List Row)
    (p : Row → Bool) (happ : applyF kv.1 (regValue kv.1 kv.2) = some p) :
    regPhase applyF (kv :: ps) qs = regPhase applyF ps (qs.filter p) := by
  simp [regPhase, happ]

theorem regPhase_cons_none {Row : Type}
    (applyF : String → FilterValue → Option (Row → Bool))
    (kv : String × String) (ps : List (String × String)) (qs : List Row)
    (happ : applyF kv.1 (regValue kv.1 kv.2) = none) :
    regPhase applyF (kv :: ps) qs = regPhase applyF ps qs := by
  simp [regPhase, happ]

theorem mem_orPhase {Row : Type} (cond : String → String → Row → Bool)
    (qp : List (String × String)) (qs : List Row) (row : Row) :
    row ∈ orPhase cond qp qs ↔
      row ∈ qs ∧ ∀ g ∈ orGroups qp, (g.2.any fun v => cond g.1 v row) = true := by
  rw [orPhase]
  by_cases h : (orGroups qp).isEmpty
  · rw [if_pos h, List.isEmpty_iff.mp h]
    simp
  · rw [if_neg h]
    simp [List.mem_filter, List.all_eq_true]

theorem mem_regPhase {Row : Type} (applyF : String → FilterValue → Option (Row → Bool)) :
    ∀ (params : List (String × String)) (qs : List Row) (row : Row),
      row ∈ regPhase applyF params qs ↔
        row ∈ qs ∧ ∀ kv ∈ params, ∀ p,
          applyF kv.1 (regValue kv.1 kv.2) = some p → p row = true := by
  intro params
  induction params with
  | nil => intro qs row; simp [regPhase]
  | cons kv ps ih =>
      intro qs row
      cases happ : applyF kv.1 (regValue kv.1 kv.2) with
      | none =>
          rw [regPhase_cons_none applyF kv ps qs happ, ih]
          simp [List.forall_mem_cons, happ]
      | some p =>
          rw [regPhase_cons_some applyF kv ps qs p happ, ih]
          simp [List.mem_filter, List.forall_mem_cons, happ, and_assoc]

/-- Claim C8: a row survives `filter_queryset` exactly when it is in the
base queryset, satisfies every `_or` group (some value of the group
matches: values OR-ed inside a group, groups AND-ed together), and
satisfies every regular parameter whose filter applies successfully. -/
theorem or_filter_combination {Row : Type}
    (applyF : String → FilterValue → Option (Row → Bool))
    (cond : String → String → Row → Bool)
    (qp : List (String × String)) (qs : List Row) (row : Row) :
    row ∈ filter_queryset applyF cond qp qs ↔
      row ∈ qs ∧
      (∀ g ∈ orGroups qp, ∃ v ∈ g.2, cond g.1 v row = true) ∧
      (∀ kv ∈ regularParams qp, ∀ p,
          applyF kv.1 (regValue kv.1 kv.2) = some p → p row = true) := by
  rw [filter_queryset, mem_regPhase, mem_orPhase]
  simp only [List.any_eq_true, and_assoc]

/-- Claim C9: regular parameters whose application raises are skipped, so
`filter_queryset` equals the same pipeline run over only the successfully
applying regular parameters. -/
theorem invalid_filters_skipped {Row : Type}
    (applyF : String → FilterValue → Option (Row → Bool))
    (cond : String → String → Row → Bool)
    (qp : List (String × String)) (qs : List Row) :
    filter_queryset applyF cond qp qs =
      regPhase applyF
        ((regularParams qp).filter fun kv => (applyF kv.1 (regValue kv.1 kv.2)).isSome)
        (orPhase cond qp qs) := by
  rw [filter_queryset]
  generalize orPhase cond qp qs = base
  generalize regularParams qp = ps
  induction ps generalizing base with
  | nil => rfl
  | cons kv ps ih =>
      cases happ : applyF kv.1 (regValue kv.1 kv.2) with
      | some p =>
          rw [regPhase_cons_some applyF kv ps base p happ,
            List.filter_cons_of_pos (by simp [happ]),
            regPhase_cons_some applyF kv _ base p happ]
          exact ih _
      | none =>
          rw [regPhase_cons_none applyF kv ps base happ,
            List.filter_cons_of_neg (by simp [happ])]
          exact ih _

theorem uniqueKeys_nil : uniqueKeys [] = [] := by
  rw [uniqueKeys]

theorem uniqueKeys_cons (k : String) (ks : List String) :
    uniqueKeys (k :: ks) = k :: uniqueKeys (ks.filter (fun x => decide (x ≠ k))) := by
  rw [uniqueKeys]

theorem uniqueKeys_filter_aux (q : String → Bool) :
    ∀ (n : Nat) (l : List String), l.length ≤ n →
      uniqueKeys (l.filter q) = (uniqueKeys l).filter q := by
  intro n
  induction n with
  | zero =>
      intro l hl
      rw [List.eq_nil_of_length_eq_zero (Nat.le_zero.mp hl), List.filter_nil,
        uniqueKeys_nil, List.filter_nil]
  | succ n ih =>
      intro l hl
      cases l with
      | nil => rw [List.filter_nil, uniqueKeys_nil, List.filter_nil]
      | cons k ks =>
          have hks : ks.length ≤ n := Nat.le_of_succ_le_succ hl
          by_cases hq : q k = true
          · rw [List.filter_cons_of_pos hq, uniqueKeys_cons, uniqueKeys_cons,
              List.filter_cons_of_pos hq]
            have hsw : (ks.filter q).filter (fun x => decide (x ≠ k))
                = (ks.filter (fun x => decide (x ≠ k))).filter q := by
              rw [List.filter_filter, List.filter_filter]
              exact List.filter_congr fun x _ => Bool.and_comm _ _
            rw [hsw, ih (ks.filter (fun x => decide (x ≠ k)))
              ((List.length_filter_le _ ks).trans hks)]
          · rw [List.filter_cons_of_neg hq, uniqueKeys_cons,
              List.filter_cons_of_neg hq,
              ← ih (ks.filter (fun x => decide (x ≠ k)))
                ((List.length_filter_le _ ks).trans hks)]
            have hsw : (ks.filter (fun x => decide (x ≠ k))).filter q
                = (ks.filter q).filter (fun x => decide (x ≠ k)) := by
              rw [List.filter_filter, List.filter_filter]
              exact List.filter_congr fun x _ => Bool.and_comm _ _
            rw [hsw]
            have hid : (ks.filter q).filter (fun x => decide (x ≠ k)) = ks.filter q := by
              rw [List.filter_eq_self]
              intro x hx
              have hxq : q x = true := (List.mem_filter.mp hx).2
              rw [decide_eq_true_eq]
              intro he
              rw [he] at hxq
              exact hq hxq
            rw [hid]

theorem uniqueKeys_filter (q : String → Bool) (l : List String) :
    uniqueKeys (l.filter q) = (uniqueKeys l).filter q :=
  uniqueKeys_filter_aux q l.length l le_rfl

def keyNonReserved (k : String) : Bool := decide (k ∉ reservedParams)

def nonReserved (kv : String × String) : Bool := keyNonReserved kv.1

theorem map_fst_filter_nr (qp : List (String × String)) :
    (qp.filter nonReserved).map Prod.fst = (qp.map Prod.fst).filter keyNonReserved := by
  induction qp with
  | nil => rfl
  | cons kv t ih =>
      by_cases h : keyNonReserved kv.1 = true <;>
        simp [List.filter_cons, nonReserved, h, ih]

theorem getlist_filter_nr (qp : List (String × String)) (k : String)
    (hk : keyNonReserved k = true) :
    getlist (qp.filter nonReserved) k = getlist qp k := by
  rw [getlist, getlist, List.filter_filter]
  apply congrArg (List.map Prod.snd)
  apply List.filter_congr
  intro kv _
  by_cases h : kv.1 = k
  · have hnr : nonReserved kv = true := by rw [nonReserved, h]; exact hk
    rw [hnr, Bool.and_true]
  · simp [h]

theorem qpGet_filter_nr (qp : List (String × String)) (k : String)
    (hk : keyNonReserved k = true) :
    qpGet (qp.filter nonReserved) k = qpGet qp k := by
  rw [qpGet, qpGet, getlist_filter_nr qp k hk]

theorem filterMap_filter_congr {α β : Type} (p : α → Bool) (f g : α → Option β) :
    ∀ l : List α, (∀ x, p x = true → f x = g x) → (∀ x, p x = false → g x = none) →
      (l.filter p).filterMap f = l.filterMap g := by
  intro l
  induction l with
  | nil => intro _ _; rfl
  | cons x xs ih =>
      intro h1 h2
      by_cases hp : p x = true
      · rw [List.filter_cons_of_pos hp, List.filterMap_cons, List.filterMap_cons,
          h1 x hp]
        cases g x <;> rw [ih h1 h2]
      · rw [List.filter_cons_of_neg hp, List.filterMap_cons,
          h2 x (Bool.not_eq_true _ ▸ hp)]
        exact ih h1 h2

theorem mem_reserved_of_keyNonReserved_false (k : String)
    (hk : keyNonReserved k = false) : k ∈ reservedParams := by
  rw [keyNonReserved, decide_eq_false_iff_not] at hk
  exact not_not.mp hk

theorem orGroups_dropReserved (qp : List (String × String)) :
    orGroups (qp.filter nonReserved) = orGroups qp := by
  rw [orGroups, orGroups, map_fst_filter_nr, uniqueKeys_filter]
  apply filterMap_filter_congr
  · intro k hk
    have hk2 : k ∉ reservedParams := by
      rw [keyNonReserved, decide_eq_true_eq] at hk
      exact hk
    rw [if_neg hk2, if_neg hk2, getlist_filter_nr qp k hk]
  · intro k hk
    rw [if_pos (mem_reserved_of_keyNonReserved_false k hk)]

theorem regularParams_dropReserved (qp : List (String × String)) :
    regularParams (qp.filter nonReserved) = regularParams qp := by
  rw [regularParams, regularParams, map_fst_filter_nr, uniqueKeys_filter]
  apply filterMap_filter_congr
  · intro k hk
    have hk2 : k ∉ reservedParams := by
      rw [keyNonReserved, decide_eq_true_eq] at hk
      exact hk
    rw [if_neg hk2, if_neg hk2]
    by_cases he : k.endsWith orSuffix = true
    · rw [if_pos he, if_pos he]
    · rw [if_neg he, if_neg he, qpGet_filter_nr qp k hk]
  · intro k hk
    rw [if_pos (mem_reserved_of_keyNonReserved_false k hk)]

/-- Claim C10: the reserved parameters page, page_size, search, ordering and
format are excluded from both the `_or` groups and the regular filters, so
removing every reserved-key pair from the query never changes the result of
`filter_queryset`. -/
theorem reserved_params_ignored {Row : Type}
    (applyF : String → FilterValue → Option (Row → Bool))
    (cond : String → String → Row → Bool)
    (qp : List (String × String)) (qs : List Row) :
    filter_queryset applyF cond (qp.filter nonReserved) qs
      = filter_queryset applyF cond qp qs := by
  rw [filter_queryset, filter_queryset, orPhase, orPhase,
    orGroups_dropReserved, regularParams_dropReserved]

end TurboDRF

